import Mathlib

/-!
Shallow embedding of `screwdriver-cd/scm-router` (`index.js`).

The router keeps an insertion-ordered registry of scm backends, keyed by an
opaque scm-context string.  JavaScript objects used as string-keyed maps are
modelled as insertion-ordered association lists `List (String × _)`; JS
errors are modelled by `JsError` (message plus the optional `statusCode`
field the code attaches); promises that can reject are modelled by
`Except JsError _`.  Asynchronous settlement time of a backend promise is
modelled by an explicit natural-number delay, so that the deterministic
single-threaded event loop (earlier settlement first, ties in the order the
callbacks were attached, i.e. registration order) becomes a total order on
`(delay, registration index)`.
-/

namespace ScmRouter

/-- A JavaScript `Error` value as thrown by the router: its `message`,
plus the optional `statusCode` property the code sets in `_parseHook`. -/
structure JsError where
  message : String
  statusCode : Option Nat := none
deriving DecidableEq, Repr

/-- Error thrown by the constructor for malformed or unusable scm config
(`new Error('No scm config passed in.')`). -/
def noScmConfigError : JsError := ⟨"No scm config passed in.", none⟩

/-- Error thrown by `chooseScm` when the request carries no usable
scm context (`new Error('Not implemented')`). -/
def notImplementedError : JsError := ⟨"Not implemented", none⟩

/-- Error rejected by `_parseHook` when webhook classification produced no
backend; the code attaches `statusCode = 400`. -/
def webhookNoMatchError : JsError :=
  ⟨"Cannot parse this webhook. Please ensure that the signature is correct or that this SCM is supported.", some 400⟩

/-- Property lookup on a JS object modelled as an association list:
`scms[k]`, returning the value stored under the first occurrence of `k`. -/
def jsGet {α : Type} : List (String × α) → String → Option α
  | [], _ => none
  | (k', v) :: rest, k => if k' = k then some v else jsGet rest k

/-- JS `a || b` on option values: the left value wins when present. -/
def jsOr {α : Type} (a b : Option α) : Option α :=
  match a with
  | some v => some v
  | none => b

/-- An instantiated scm plugin as the loader sees it: the list of values
returned by its `getScmContexts()` (an entry is `none` when the reported
value is not a string), together with the opaque backend instance `inst`
that the registry stores. -/
structure ScmPlugin (ι : Type) where
  contexts : List (Option String)
  inst : ι
deriving DecidableEq, Repr

/-- The options object handed to a plugin constructor.  The code builds it
with `hoek.applyToDefaults({ displayName }, scm.config)`, which returns
`null` when `scm.config` is falsy, and otherwise an object whose
`displayName` is taken from `scm.config` when present and from the map key
otherwise; remaining config fields are kept opaque in `rest`. -/
inductive JsOptions (ν : Type)
  | null
  | obj (displayName : String) (rest : ν)
deriving DecidableEq, Repr

/-- The module environment `loadPlugin` runs in: `resolve p` models
`require('screwdriver-scm-' + p)` (`none` when the module cannot be
resolved) and, when resolved, `new ScmPlugin(options)`, whose constructor
may itself throw. -/
structure PluginEnv (ι ν : Type) where
  resolve : String → Option (JsOptions ν → Except JsError (ScmPlugin ι))

/-- The registry `this.scms`: an insertion-ordered map from scm context to
the stored plugin instance. -/
abbrev Registry (ι : Type) := List (String × ScmPlugin ι)

/-- `loadPlugin(plugin, options)` from `index.js`: refuses the reserved
name `router`; an unresolvable module or a malformed first reported
context (absent, not a string, or empty) is skipped with a warning;
a context that is already registered keeps the existing registration and
discards the new instance; otherwise the new instance is appended.  An
exception thrown by the plugin constructor itself is not caught. -/
def loadPlugin {ι ν : Type} (env : PluginEnv ι ν) (plugin : String)
    (options : JsOptions ν) (scms : Registry ι) : Except JsError (Registry ι) :=
  if plugin = "router" then Except.ok scms
  else
    match env.resolve plugin with
    | none => Except.ok scms
    | some make =>
      match make options with
      | Except.error e => Except.error e
      | Except.ok sp =>
        match sp.contexts.head? with
        | some (some ctx) =>
          if ctx = "" then Except.ok scms
          else if (jsGet scms ctx).isSome then Except.ok scms
          else Except.ok (scms ++ [(ctx, sp)])
        | _ => Except.ok scms

/-- The `config` field of one entry of `config.scms`: falsy (skipped),
truthy but not an object (fatal), or an object carrying an optional
`displayName` and opaque remaining fields. -/
inductive CfgField (ν : Type)
  | falsy
  | truthyNonObject
  | obj (displayName : Option String) (rest : ν)
deriving DecidableEq, Repr

/-- One value of the `config.scms` map/array: either not an object at all
(fatal) or a descriptor `{ plugin, config }`. -/
inductive ScmsEntry (ν : Type)
  | nonObject
  | scm (plugin : String) (config : CfgField ν)
deriving DecidableEq, Repr

/-- One iteration of the constructor loop over `Object.keys(scmsConfig)`:
non-object entries and truthy non-object configs throw
`noScmConfigError`; otherwise the merged options (`displayName` defaulted
to the map key) are passed to `loadPlugin`. -/
def processEntry {ι ν : Type} (env : PluginEnv ι ν) (scms : Registry ι)
    (e : String × ScmsEntry ν) : Except JsError (Registry ι) :=
  match e.2 with
  | ScmsEntry.nonObject => Except.error noScmConfigError
  | ScmsEntry.scm plugin cfg =>
    match cfg with
    | CfgField.truthyNonObject => Except.error noScmConfigError
    | CfgField.falsy => loadPlugin env plugin JsOptions.null scms
    | CfgField.obj dn rest => loadPlugin env plugin (JsOptions.obj (dn.getD e.1) rest) scms

/-- The constructor loop over all entries of `config.scms`, threading the
registry; the first thrown error aborts the loop. -/
def processEntries {ι ν : Type} (env : PluginEnv ι ν) :
    List (String × ScmsEntry ν) → Registry ι → Except JsError (Registry ι)
  | [], scms => Except.ok scms
  | e :: rest, scms =>
    match processEntry env scms e with
    | Except.error err => Except.error err
    | Except.ok scms2 => processEntries env rest scms2

/-- The `ScmRouter` constructor.  `scmsConfig = none` models a `config.scms`
that is absent or not an object (the loop is skipped); otherwise the
entries are processed in key order and, at the end, an empty registry
throws `noScmConfigError`. -/
def new {ι ν : Type} (env : PluginEnv ι ν)
    (scmsConfig : Option (List (String × ScmsEntry ν))) : Except JsError (Registry ι) :=
  match (match scmsConfig with
         | none => Except.ok []
         | some entries => processEntries env entries []) with
  | Except.error e => Except.error e
  | Except.ok scms => if scms.isEmpty then Except.error noScmConfigError else Except.ok scms

/-- `_getScmContexts()`: `Object.keys(this.scms)`, the registered context
keys in registration order. -/
def getScmContexts {ι : Type} (scms : Registry ι) : List String :=
  scms.map Prod.fst

/-- The request config handed to `chooseScm`: falsy, or an object whose
`scmContext` field is `some s` exactly when it holds the string `s`
(`none` covers an absent or non-string field). -/
inductive ReqConfig
  | falsy
  | obj (scmContext : Option String)
deriving DecidableEq, Repr

/-- `chooseScm(config)`: when `config` is truthy and `config.scmContext` is
a string registered in `this.scms`, the stored backend instance itself is
returned; in every other case the promise rejects with `Not implemented`. -/
def chooseScm {ι : Type} (scms : Registry ι) (config : ReqConfig) :
    Except JsError (ScmPlugin ι) :=
  match config with
  | ReqConfig.obj (some s) =>
    match jsGet scms s with
    | some scm => Except.ok scm
    | none => Except.error notImplementedError
  | _ => Except.error notImplementedError

/-- Deterministic event-loop selection: among the elements of the list
that `f` accepts, pick the one whose callback settles first, i.e. the one
minimising `(time, position)` lexicographically, and return its settlement
time with the value `f` produced.  Both `async.detect` (all iteratees are
launched up front; the first truthy callback wins) and the rejection
behaviour of `Promise.all` (the first rejection to settle wins) reduce to
this selection. -/
def earliestHit {α β : Type} (time : α → Nat) (f : α → Option β) :
    List α → Option (Nat × β)
  | [] => none
  | a :: rest =>
    match f a with
    | none => earliestHit time f rest
    | some b =>
      match earliestHit time f rest with
      | none => some (time a, b)
      | some (d, c) => if time a ≤ d then some (time a, b) else some (d, c)

/-- An scm backend as the webhook classifier sees it: the opaque instance
`inst`, the settlement delay of its `canHandleWebhook` promise, and the
outcomes of its `canHandleWebhook` and `parseHook` capabilities, all as
functions of the request headers and payload. -/
structure ScmBackend (ι Hd Pl V : Type) where
  inst : ι
  delay : Hd → Pl → Nat
  canHandleWebhook : Hd → Pl → Except JsError Bool
  parseHook : Hd → Pl → Except JsError V

/-- Whether the detect iteratee passes backend `s` to its callback: the
code runs `cb(result === false ? null : scm)` on resolution and `cb(null)`
on rejection, so a backend matches exactly when its predicate resolves
with a value other than `false` (with boolean-valued predicates: `true`). -/
def hookMatches {ι Hd Pl V : Type} (s : ScmBackend ι Hd Pl V) (h : Hd) (p : Pl) : Bool :=
  match s.canHandleWebhook h p with
  | Except.ok b => b
  | Except.error _ => false

/-- `chooseWebhookScm(headers, payload)`: `async.detect` over the registry
values.  Every predicate is launched; the promise resolves with the
backend whose predicate is the first to settle with a match (earliest
delay, ties broken by registration order), or with `null` — modelled as
`none` — when no predicate matches.  The promise never rejects: the
executor only ever calls `resolve`. -/
def chooseWebhookScm {ι Hd Pl V : Type} (scms : List (ScmBackend ι Hd Pl V))
    (h : Hd) (p : Pl) : Option (ScmBackend ι Hd Pl V) :=
  (earliestHit (fun s => s.delay h p)
    (fun s => if hookMatches s h p then some s else none) scms).map Prod.snd

/-- The predicates `chooseWebhookScm` invokes, in launch order: the
iteratee of `async.detect` is started for every item of the collection in
iteration order before any of the asynchronous callbacks can run, so every
registered backend has `canHandleWebhook` invoked, in registration
order. -/
def launchedPredicates {ι Hd Pl V : Type} (scms : List (ScmBackend ι Hd Pl V)) : List ι :=
  scms.map ScmBackend.inst

/-- `_parseHook(headers, payload)`: classify the webhook; a `null`
classification result is turned into the rejected `webhookNoMatchError`
(with `statusCode` 400), otherwise the chosen backend parses the hook. -/
def parseHookRouter {ι Hd Pl V : Type} (scms : List (ScmBackend ι Hd Pl V))
    (h : Hd) (p : Pl) : Except JsError V :=
  match chooseWebhookScm scms h p with
  | none => Except.error webhookNoMatchError
  | some scm => scm.parseHook h p

/-- `_canHandleWebhook(headers, payload)`: `Boolean(scm)` on the
classification result, with a `.catch(() => false)` guard; the result is
always a boolean and the returned promise never rejects. -/
def canHandleWebhookRouter {ι Hd Pl V : Type} (scms : List (ScmBackend ι Hd Pl V))
    (h : Hd) (p : Pl) : Bool :=
  (chooseWebhookScm scms h p).isSome

/-- `Object.assign` semantics for one key: an existing key is updated in
place, a new key is appended at the end. -/
def setKey {V : Type} (m : List (String × V)) (k : String) (v : V) :
    List (String × V) :=
  if m.any (fun p => p.1 = k) then
    m.map (fun p => if p.1 = k then (k, v) else p)
  else m ++ [(k, v)]

/-- `Object.assign(m, r)`: fold the source object over the target. -/
def objAssign {V : Type} (m r : List (String × V)) : List (String × V) :=
  r.foldl (fun acc p => setKey acc p.1 p.2) m

/-- `results.forEach(result => Object.assign(map, result))` starting from
the empty map. -/
def mergeAll {V : Type} (rs : List (List (String × V))) : List (String × V) :=
  rs.foldl objAssign []

/-- The outcome of one `fn(scm)` call inside `allScm`: the settlement
delay of the returned promise and its result, a small key/value object on
success. -/
abbrev ScmOp (α V : Type) := α → Nat × Except JsError (List (String × V))

/-- The per-backend promises `allScm` passes to `Promise.all`, in registry
order (`Object.keys(this.scms).map(key => fn(this.scms[key]))`). -/
def allScmOutcomes {α V : Type} (scms : List (String × α)) (fn : ScmOp α V) :
    List (Nat × Except JsError (List (String × V))) :=
  scms.map (fun kv => fn kv.2)

/-- The successful per-backend result objects, in registry order. -/
def allOkResults {α V : Type} (scms : List (String × α)) (fn : ScmOp α V) :
    List (List (String × V)) :=
  (allScmOutcomes scms fn).filterMap (fun o =>
    match o.2 with
    | Except.ok m => some m
    | Except.error _ => none)

/-- The rejection, if any, of one per-backend outcome: this is the filter
`Promise.all` aborts on. -/
def promiseRejection {V : Type} (o : Nat × Except JsError (List (String × V))) :
    Option JsError :=
  match o.2 with
  | Except.error e => some e
  | Except.ok _ => none

/-- `allScm(fn)`: `Promise.all` over `fn` applied to every registry value.
If some promise rejects, the aggregate rejects with the rejection that
settles first (earliest delay, ties broken by registry order) and no
partial results are returned; otherwise the result objects are
`Object.assign`-merged into one map in registry order. -/
def allScm {α V : Type} (scms : List (String × α)) (fn : ScmOp α V) :
    Except JsError (List (String × V)) :=
  match earliestHit Prod.fst promiseRejection (allScmOutcomes scms fn) with
  | some (_, e) => Except.error e
  | none => Except.ok (mergeAll (allOkResults scms fn))

section EarliestHit

variable {α β : Type} (time : α → Nat) (f : α → Option β)

/-- The event-loop selection finds nothing exactly when no element is
accepted. -/
theorem earliestHit_eq_none_iff (l : List α) :
    earliestHit time f l = none ↔ ∀ a ∈ l, f a = none := by
  induction l with
  | nil => simp [earliestHit]
  | cons x rest ih =>
    cases hx : f x with
    | none => simp [earliestHit, hx, ih]
    | some b =>
      cases hr : earliestHit time f rest with
      | none =>
        simp only [earliestHit, hx, hr]
        constructor
        · intro hcon; exact absurd hcon (by simp)
        · intro hall; exact absurd (hall x (List.mem_cons_self x rest)) (by simp [hx])
      | some dc =>
        obtain ⟨d, c⟩ := dc
        simp only [earliestHit, hx, hr]
        constructor
        · intro hcon; split at hcon <;> simp at hcon
        · intro hall; exact absurd (hall x (List.mem_cons_self x rest)) (by simp [hx])

/-- A selected value comes from some accepted element of the list, at its
settlement time. -/
theorem earliestHit_mem {l : List α} {d : Nat} {b : β}
    (h : earliestHit time f l = some (d, b)) :
    ∃ a ∈ l, f a = some b ∧ time a = d := by
  induction l with
  | nil => simp [earliestHit] at h
  | cons x rest ih =>
    cases hx : f x with
    | none =>
      simp only [earliestHit, hx] at h
      obtain ⟨a, ha, hfa, hta⟩ := ih h
      exact ⟨a, List.mem_cons_of_mem x ha, hfa, hta⟩
    | some bx =>
      cases hr : earliestHit time f rest with
      | none =>
        simp only [earliestHit, hx, hr, Option.some.injEq, Prod.mk.injEq] at h
        exact ⟨x, List.mem_cons_self x rest, by rw [hx, h.2], h.1⟩
      | some dc =>
        obtain ⟨d', c⟩ := dc
        simp only [earliestHit, hx, hr] at h
        by_cases hle : time x ≤ d'
        · rw [if_pos hle] at h
          simp only [Option.some.injEq, Prod.mk.injEq] at h
          exact ⟨x, List.mem_cons_self x rest, by rw [hx, h.2], h.1⟩
        · rw [if_neg hle] at h
          simp only [Option.some.injEq, Prod.mk.injEq] at h
          obtain ⟨a, ha, hfa, hta⟩ := ih (by rw [hr, h.1, h.2])
          exact ⟨a, List.mem_cons_of_mem x ha, hfa, hta⟩

/-- The selected settlement time is minimal among all accepted
elements. -/
theorem earliestHit_min {l : List α} :
    ∀ {d : Nat} {b : β}, earliestHit time f l = some (d, b) →
      ∀ t ∈ l, (f t).isSome → d ≤ time t := by
  induction l with
  | nil => simp
  | cons x rest ih =>
    intro d b h t ht hsome
    cases hx : f x with
    | none =>
      simp only [earliestHit, hx] at h
      rcases List.mem_cons.mp ht with rfl | ht'
      · rw [hx] at hsome; simp at hsome
      · exact ih h t ht' hsome
    | some bx =>
      cases hr : earliestHit time f rest with
      | none =>
        simp only [earliestHit, hx, hr, Option.some.injEq, Prod.mk.injEq] at h
        rcases List.mem_cons.mp ht with rfl | ht'
        · exact le_of_eq h.1.symm
        · have := (earliestHit_eq_none_iff time f rest).mp hr t ht'
          rw [this] at hsome; simp at hsome
      | some dc =>
        obtain ⟨d', c⟩ := dc
        simp only [earliestHit, hx, hr] at h
        by_cases hle : time x ≤ d'
        · rw [if_pos hle] at h
          simp only [Option.some.injEq, Prod.mk.injEq] at h
          rcases List.mem_cons.mp ht with rfl | ht'
          · exact le_of_eq h.1.symm
          · calc d = time x := h.1.symm
              _ ≤ d' := hle
              _ ≤ time t := ih hr t ht' hsome
        · rw [if_neg hle] at h
          simp only [Option.some.injEq, Prod.mk.injEq] at h
          rcases List.mem_cons.mp ht with rfl | ht'
          · exact le_of_lt (h.1 ▸ Nat.lt_of_not_le hle)
          · exact ih (by rw [hr, h.1, h.2]) t ht' hsome

/-- Forward characterization: a selected element splits the list into a
prefix of elements that settle strictly later (or are not accepted), the
winner, and a suffix of elements that settle no earlier. -/
theorem earliestHit_spec {l : List α} {d : Nat} {b : β}
    (h : earliestHit time f l = some (d, b)) :
    ∃ pre a post, l = pre ++ a :: post ∧ f a = some b ∧ time a = d ∧
      (∀ t ∈ pre, (f t).isSome → d < time t) ∧
      (∀ t ∈ post, (f t).isSome → d ≤ time t) := by
  induction l with
  | nil => simp [earliestHit] at h
  | cons x rest ih =>
    cases hx : f x with
    | none =>
      simp only [earliestHit, hx] at h
      obtain ⟨pre, a, post, hl, hfa, hta, hpre, hpost⟩ := ih h
      refine ⟨x :: pre, a, post, by rw [hl]; rfl, hfa, hta, ?_, hpost⟩
      intro t ht hsome
      rcases List.mem_cons.mp ht with rfl | ht'
      · rw [hx] at hsome; simp at hsome
      · exact hpre t ht' hsome
    | some bx =>
      cases hr : earliestHit time f rest with
      | none =>
        simp only [earliestHit, hx, hr, Option.some.injEq, Prod.mk.injEq] at h
        refine ⟨[], x, rest, rfl, by rw [hx, h.2], h.1, by simp, ?_⟩
        intro t ht hsome
        have := (earliestHit_eq_none_iff time f rest).mp hr t ht
        rw [this] at hsome; simp at hsome
      | some dc =>
        obtain ⟨d', c⟩ := dc
        simp only [earliestHit, hx, hr] at h
        by_cases hle : time x ≤ d'
        · rw [if_pos hle] at h
          simp only [Option.some.injEq, Prod.mk.injEq] at h
          refine ⟨[], x, rest, rfl, by rw [hx, h.2], h.1, by simp, ?_⟩
          intro t ht hsome
          calc d = time x := h.1.symm
            _ ≤ d' := hle
            _ ≤ time t := earliestHit_min time f hr t ht hsome
        · rw [if_neg hle] at h
          simp only [Option.some.injEq, Prod.mk.injEq] at h
          obtain ⟨pre, a, post, hl, hfa, hta, hpre, hpost⟩ := ih (by rw [hr, h.1, h.2])
          refine ⟨x :: pre, a, post, by rw [hl]; rfl, hfa, hta, ?_, hpost⟩
          intro t ht hsome
          rcases List.mem_cons.mp ht with rfl | ht'
          · exact h.1 ▸ Nat.lt_of_not_le hle
          · exact hpre t ht' hsome

/-- Backward characterization: any element that is accepted, settles no
later than every accepted element after it, and strictly earlier than
every accepted element before it, is the selected one. -/
theorem earliestHit_complete {d : Nat} {b : β} :
    ∀ (pre : List α) (a : α) (post : List α), f a = some b → time a = d →
      (∀ t ∈ pre, (f t).isSome → d < time t) →
      (∀ t ∈ post, (f t).isSome → d ≤ time t) →
      earliestHit time f (pre ++ a :: post) = some (d, b) := by
  intro pre
  induction pre with
  | nil =>
    intro a post hfa hta _ hpost
    simp only [List.nil_append, earliestHit, hfa]
    cases hr : earliestHit time f post with
    | none => rw [hta]
    | some dc =>
      obtain ⟨d', c⟩ := dc
      obtain ⟨t, ht, hft, htt⟩ := earliestHit_mem time f hr
      have hdd : d ≤ d' := htt ▸ hpost t ht (by rw [hft]; rfl)
      rw [hta]
      show (if d ≤ d' then some (d, b) else some (d', c)) = some (d, b)
      rw [if_pos hdd]
  | cons x pre' ih =>
    intro a post hfa hta hpre hpost
    have hrec : earliestHit time f (pre' ++ a :: post) = some (d, b) :=
      ih a post hfa hta
        (fun t ht hsome => hpre t (List.mem_cons_of_mem x ht) hsome)
        hpost
    have hrec2 : earliestHit time f (List.append pre' (a :: post)) = some (d, b) := hrec
    cases hx : f x with
    | none =>
      simp only [List.cons_append, earliestHit, hx]
      exact hrec
    | some bx =>
      have hdx : d < time x := hpre x (List.mem_cons_self x pre') (by rw [hx]; rfl)
      simp only [List.cons_append, earliestHit, hx, hrec2, hrec]
      rw [if_neg (Nat.not_le.mpr hdx)]

/-- Skipping an element the filter rejects does not change the
selection. -/
theorem earliestHit_append_none {s : α} (hs : f s = none) :
    ∀ (pre post : List α),
      earliestHit time f (pre ++ s :: post) = earliestHit time f (pre ++ post) := by
  intro pre
  induction pre with
  | nil => intro post; simp only [List.nil_append, earliestHit, hs]
  | cons x pre' ih =>
    intro post
    have ih2 : earliestHit time f (List.append pre' (s :: post)) =
        earliestHit time f (List.append pre' post) := ih post
    simp only [List.cons_append, earliestHit, ih post, ih2]

end EarliestHit

section Webhook

variable {ι Hd Pl V : Type}

/-- A backend passes the detect filter exactly when its predicate resolves
`true`. -/
theorem hookMatches_eq_true_iff (s : ScmBackend ι Hd Pl V) (h : Hd) (p : Pl) :
    hookMatches s h p = true ↔ s.canHandleWebhook h p = Except.ok true := by
  unfold hookMatches
  cases hc : s.canHandleWebhook h p with
  | ok b => cases b <;> simp
  | error e => simp

/-- Classification resolves with `null` exactly when no predicate
matches. -/
theorem chooseWebhookScm_eq_none_iff (scms : List (ScmBackend ι Hd Pl V))
    (h : Hd) (p : Pl) :
    chooseWebhookScm scms h p = none ↔ ∀ s ∈ scms, hookMatches s h p = false := by
  unfold chooseWebhookScm
  rw [Option.map_eq_none', earliestHit_eq_none_iff]
  refine forall_congr' fun s => forall_congr' fun _ => ?_
  by_cases hm : hookMatches s h p <;> simp [hm]

/-- Claim C1 (corrected). The source uses `async.detect`, which launches
the `canHandleWebhook` iteratee for every registered backend up front (in
registration order) and resolves with the backend whose predicate is the
first to settle `true` in time, ties broken by registration order — not
with a strict registration-order short-circuit scan.  This theorem is the
amended statement: `chooseWebhookScm` returns `s` exactly when `s` is a
matching backend, every matching backend registered before it settles
strictly later, and every matching backend registered after it settles no
earlier. -/
theorem chooseWebhookScm_first_settled_match (scms : List (ScmBackend ι Hd Pl V))
    (h : Hd) (p : Pl) (s : ScmBackend ι Hd Pl V) :
    chooseWebhookScm scms h p = some s ↔
      ∃ pre post, scms = pre ++ s :: post ∧ hookMatches s h p = true ∧
        (∀ t ∈ pre, hookMatches t h p = true → s.delay h p < t.delay h p) ∧
        (∀ t ∈ post, hookMatches t h p = true → s.delay h p ≤ t.delay h p) := by
  unfold chooseWebhookScm
  constructor
  · intro hmap
    obtain ⟨⟨d, b⟩, hb, hbs⟩ := Option.map_eq_some'.mp hmap
    obtain ⟨pre, a, post, hl, hfa, hta, hpre, hpost⟩ := earliestHit_spec _ _ hb
    have has : a = s := by
      by_cases hm : hookMatches a h p <;> simp [hm] at hfa
      rw [← hfa] at hbs
      exact hbs ▸ rfl
    subst has
    have hm : hookMatches a h p = true := by
      by_cases hm : hookMatches a h p
      · exact hm
      · simp [hm] at hfa
    refine ⟨pre, post, hl, hm, ?_, ?_⟩
    · intro t ht htm
      have := hpre t ht (by by_cases h2 : hookMatches t h p <;> simp [h2] at htm ⊢)
      exact hta ▸ this
    · intro t ht htm
      have := hpost t ht (by by_cases h2 : hookMatches t h p <;> simp [h2] at htm ⊢)
      exact hta ▸ this
  · rintro ⟨pre, post, hl, hm, hpre, hpost⟩
    rw [hl]
    have : earliestHit (fun t => t.delay h p)
        (fun t => if hookMatches t h p then some t else none)
        (pre ++ s :: post) = some (s.delay h p, s) := by
      refine earliestHit_complete _ _ pre s post (by simp [hm]) rfl ?_ ?_
      · intro t ht hsome
        refine hpre t ht ?_
        by_cases h2 : hookMatches t h p
        · exact h2
        · simp [h2] at hsome
      · intro t ht hsome
        refine hpost t ht ?_
        by_cases h2 : hookMatches t h p
        · exact h2
        · simp [h2] at hsome
    rw [this]
    rfl

/-- First demo backend for the classification race: registered first, its
predicate resolves `true` after two ticks. -/
def slowTrue : ScmBackend Nat Unit Unit Unit :=
  ⟨0, fun _ _ => 2, fun _ _ => Except.ok true, fun _ _ => Except.ok 0⟩

/-- Second demo backend for the classification race: registered second,
its predicate resolves `true` immediately. -/
def fastTrue : ScmBackend Nat Unit Unit Unit :=
  ⟨1, fun _ _ => 0, fun _ _ => Except.ok true, fun _ _ => Except.ok 1⟩

/-- Claim C1 counterexample.  Both registered backends claim the webhook,
but the second-registered predicate settles first: classification returns
the second backend, not the first-registered matching one, and the first
match does not stop the second predicate from being invoked (every
predicate is launched). -/
theorem claim1_counterexample :
    (chooseWebhookScm [slowTrue, fastTrue] () ()).map ScmBackend.inst = some 1 ∧
    (chooseWebhookScm [slowTrue, fastTrue] () ()).map ScmBackend.inst ≠ some 0 ∧
    launchedPredicates [slowTrue, fastTrue] = [0, 1] := by
  refine ⟨rfl, ?_, rfl⟩
  intro hcon
  simp [chooseWebhookScm, earliestHit, hookMatches, slowTrue, fastTrue,
    launchedPredicates] at hcon

/-- The specification example scenario: with three registered backends
whose predicates settle simultaneously and only the third resolving
`true`, classification returns the third backend. -/
theorem chooseWebhookScm_third_backend_example
    (g l e : ScmBackend Nat Unit Unit Unit)
    (hg : hookMatches g () () = false) (hl : hookMatches l () () = false)
    (he : hookMatches e () () = true) :
    chooseWebhookScm [g, l, e] () () = some e := by
  unfold chooseWebhookScm
  have hpre : ∀ t ∈ [g, l],
      ((fun t => if hookMatches t () () then some t else none) t).isSome = true →
      e.delay () () < t.delay () () := by
    intro t ht hsome
    rcases List.mem_cons.mp ht with rfl | ht'
    · simp [hg] at hsome
    · rcases List.mem_cons.mp ht' with rfl | ht''
      · simp [hl] at hsome
      · cases ht''
  have hE := earliestHit_complete (b := e) (fun t => t.delay () ())
    (fun t => if hookMatches t () () then some t else none)
    [g, l] e [] (by simp [he]) rfl hpre (by simp)
  rw [show ([g, l] ++ e :: []) = [g, l, e] from rfl] at hE
  rw [hE]
  rfl

/-- Demo backend whose predicate resolves `false`. -/
def plainFalse : ScmBackend Nat Unit Unit Unit :=
  ⟨2, fun _ _ => 0, fun _ _ => Except.ok false, fun _ _ => Except.ok 2⟩

/-- Demo backend whose predicate rejects. -/
def plainReject : ScmBackend Nat Unit Unit Unit :=
  ⟨2, fun _ _ => 0, fun _ _ => Except.error ⟨"boom", none⟩, fun _ _ => Except.ok 2⟩

/-- Claim C2 counterexample.  With a registry whose only backend declines
the webhook, `chooseWebhookScm` resolves successfully with `null`
(modelled as `none`) instead of failing: the executor passed to the
promise only ever calls `resolve`, and `async.detect` hands it `null`
when no iteratee matched.  The distinguishable error is only produced
downstream by `_parseHook`. -/
theorem claim2_counterexample :
    chooseWebhookScm [plainFalse] () () = none ∧
    parseHookRouter [plainFalse] () () = Except.error webhookNoMatchError := by
  exact ⟨rfl, rfl⟩

/-- Claim C2 (corrected).  Amended statement: when no registered predicate
resolves `true`, `chooseWebhookScm` itself resolves with `null`; the
distinguishable no-handler failure is produced by `_parseHook`, which
rejects with the `statusCode 400` webhook error, an error distinct from
the unresolved-context `Not implemented` error of `chooseScm`. -/
theorem parseHookRouter_no_handler (scms : List (ScmBackend ι Hd Pl V))
    (h : Hd) (p : Pl) (hnone : ∀ s ∈ scms, hookMatches s h p = false) :
    chooseWebhookScm scms h p = none ∧
    parseHookRouter scms h p = Except.error webhookNoMatchError ∧
    webhookNoMatchError ≠ notImplementedError := by
  have hc : chooseWebhookScm scms h p = none :=
    (chooseWebhookScm_eq_none_iff scms h p).mpr hnone
  refine ⟨hc, ?_, by decide⟩
  unfold parseHookRouter
  rw [hc]

/-- Claim C2 witness: the amended statement applied to a concrete
one-backend registry that declines the webhook. -/
theorem claim2_witness :
    chooseWebhookScm [plainFalse] () () = none ∧
    parseHookRouter [plainFalse] () () = Except.error webhookNoMatchError ∧
    webhookNoMatchError ≠ notImplementedError :=
  parseHookRouter_no_handler [plainFalse] () () (by decide)

/-- Claim C9 (confirmed).  A predicate that rejects is routed through the
`.catch` handler to `cb(null)`, exactly like a predicate that resolves
`false`: replacing a rejecting backend by one that resolves `false` (all
other backends unchanged) leaves the classification result unchanged, so
the scan continues over the remaining backends and never aborts. -/
theorem chooseWebhookScm_rejection_as_false
    (pre post : List (ScmBackend ι Hd Pl V)) (h : Hd) (p : Pl)
    (sErr sFalse : ScmBackend ι Hd Pl V) (e : JsError)
    (herr : sErr.canHandleWebhook h p = Except.error e)
    (hfalse : sFalse.canHandleWebhook h p = Except.ok false) :
    chooseWebhookScm (pre ++ sErr :: post) h p =
      chooseWebhookScm (pre ++ sFalse :: post) h p := by
  unfold chooseWebhookScm
  rw [earliestHit_append_none _ _ (by simp [hookMatches, herr]) pre post,
    earliestHit_append_none _ _ (by simp [hookMatches, hfalse]) pre post]

/-- Claim C9 witness: a rejecting backend and a false-resolving backend
placed between the same neighbours classify identically. -/
theorem claim9_witness :
    chooseWebhookScm [slowTrue, plainReject] () () =
      chooseWebhookScm [slowTrue, plainFalse] () () :=
  chooseWebhookScm_rejection_as_false [slowTrue] [] () () plainReject plainFalse
    ⟨"boom", none⟩ rfl rfl

/-- Claim C10 (confirmed).  `_canHandleWebhook` returns
`Boolean(classification result)` with a `.catch(() => false)` guard: by
construction it always produces a boolean and never rejects (the model
gives it the total type `Bool`; the catch branch is unreachable because
the classification promise never rejects), and it is `true` exactly when
some registered backend resolves its predicate with `true`. -/
theorem canHandleWebhookRouter_true_iff (scms : List (ScmBackend ι Hd Pl V))
    (h : Hd) (p : Pl) :
    canHandleWebhookRouter scms h p = true ↔
      ∃ s ∈ scms, s.canHandleWebhook h p = Except.ok true := by
  constructor
  · intro htrue
    by_contra hno
    push_neg at hno
    have hc : chooseWebhookScm scms h p = none := by
      refine (chooseWebhookScm_eq_none_iff scms h p).mpr fun s hs => ?_
      by_cases hm : hookMatches s h p
      · exact absurd ((hookMatches_eq_true_iff s h p).mp hm) (hno s hs)
      · simpa using hm
    unfold canHandleWebhookRouter at htrue
    rw [hc] at htrue
    cases htrue
  · rintro ⟨s, hs, hok⟩
    unfold canHandleWebhookRouter
    cases hc : chooseWebhookScm scms h p with
    | some t => rfl
    | none =>
      have := (chooseWebhookScm_eq_none_iff scms h p).mp hc s hs
      rw [(hookMatches_eq_true_iff s h p).mpr hok] at this
      cases this

end Webhook

/-- Whether a promise result is a fulfillment (`Except.ok`). -/
def isFulfilled {γ : Type} : Except JsError γ → Bool
  | Except.ok _ => true
  | Except.error _ => false

/-- The message of a rejected promise, `none` on fulfillment. -/
def errMessage {γ : Type} : Except JsError γ → Option String
  | Except.error e => some e.message
  | Except.ok _ => none

/-- Reference lookup for last-write-wins merging: the value stored under
`k` by the last result object (in merge order) that contains `k`. -/
def lastLookup {V : Type} : List (List (String × V)) → String → Option V
  | [], _ => none
  | r :: rest, k => jsOr (lastLookup rest k) (jsGet r k)

section Merging

variable {γ : Type}

theorem jsGet_cons (k1 : String) (v1 : γ) (rest : List (String × γ)) (k : String) :
    jsGet ((k1, v1) :: rest) k = if k1 = k then some v1 else jsGet rest k := rfl

theorem jsOr_some (v : γ) (b : Option γ) : jsOr (some v) b = some v := rfl

theorem jsOr_none_left (b : Option γ) : jsOr none b = b := rfl

theorem jsOr_none_right (a : Option γ) : jsOr a none = a := by
  cases a <;> rfl

theorem jsOr_assoc (a b c : Option γ) : jsOr (jsOr a b) c = jsOr a (jsOr b c) := by
  cases a <;> rfl

/-- A key absent from the key list is absent from the object. -/
theorem jsGet_eq_none_of_not_mem {m : List (String × γ)} {k : String}
    (hk : k ∉ m.map Prod.fst) : jsGet m k = none := by
  induction m with
  | nil => rfl
  | cons x rest ih =>
    obtain ⟨x1, x2⟩ := x
    simp only [List.map_cons, List.mem_cons] at hk
    push_neg at hk
    rw [jsGet_cons, if_neg (fun h => hk.1 h.symm)]
    exact ih hk.2

/-- Lookup succeeds exactly on the listed keys. -/
theorem jsGet_isSome_iff {m : List (String × γ)} {k : String} :
    (jsGet m k).isSome = true ↔ k ∈ m.map Prod.fst := by
  induction m with
  | nil => simp [jsGet]
  | cons x rest ih =>
    obtain ⟨x1, x2⟩ := x
    rw [jsGet_cons]
    simp only [List.map_cons, List.mem_cons]
    by_cases hxk : x1 = k
    · simp [hxk]
    · rw [if_neg hxk, ih]
      constructor
      · exact Or.inr
      · rintro (rfl | hk)
        · exact absurd rfl hxk
        · exact hk

/-- Lookup of a listed pair under a duplicate-free key list. -/
theorem jsGet_of_mem_nodup {m : List (String × γ)} {k : String} {v : γ}
    (hnd : (m.map Prod.fst).Nodup) (hmem : (k, v) ∈ m) : jsGet m k = some v := by
  induction m with
  | nil => cases hmem
  | cons x rest ih =>
    obtain ⟨x1, x2⟩ := x
    simp only [List.map_cons, List.nodup_cons] at hnd
    rw [jsGet_cons]
    rcases List.mem_cons.mp hmem with heq | hmem'
    · cases heq
      rw [if_pos rfl]
    · have hk : x1 ≠ k := by
        intro hxk
        exact hnd.1 (hxk ▸ List.mem_map_of_mem Prod.fst hmem')
      rw [if_neg hk]
      exact ih hnd.2 hmem'

/-- The boolean key test used by `setKey` agrees with key membership. -/
theorem anyKey_iff (m : List (String × γ)) (k : String) :
    m.any (fun p => p.1 = k) = true ↔ k ∈ m.map Prod.fst := by
  rw [List.any_eq_true]
  constructor
  · rintro ⟨p, hp, hpk⟩
    rw [decide_eq_true_eq] at hpk
    exact hpk ▸ List.mem_map_of_mem Prod.fst hp
  · intro hk
    obtain ⟨p, hp, hpk⟩ := List.mem_map.mp hk
    exact ⟨p, hp, by rw [decide_eq_true_eq]; exact hpk⟩

theorem updateKey_cons (k : String) (v : γ) (x1 : String) (x2 : γ)
    (rest : List (String × γ)) :
    (((x1, x2) :: rest).map fun p => if p.1 = k then (k, v) else p) =
      (if x1 = k then (k, v) else (x1, x2)) ::
        (rest.map fun p => if p.1 = k then (k, v) else p) := rfl

theorem jsGet_update_self {m : List (String × γ)} {k : String} (v : γ)
    (hk : k ∈ m.map Prod.fst) :
    jsGet (m.map fun p => if p.1 = k then (k, v) else p) k = some v := by
  induction m with
  | nil => cases hk
  | cons x rest ih =>
    obtain ⟨x1, x2⟩ := x
    rw [updateKey_cons]
    by_cases hxk : x1 = k
    · rw [if_pos hxk, jsGet_cons, if_pos rfl]
    · rw [if_neg hxk, jsGet_cons, if_neg hxk]
      refine ih ?_
      simp only [List.map_cons, List.mem_cons] at hk
      rcases hk with heq | h2
      · exact absurd heq.symm hxk
      · exact h2

theorem jsGet_update_ne {m : List (String × γ)} {k k' : String} (v : γ)
    (hk : k' ≠ k) :
    jsGet (m.map fun p => if p.1 = k then (k, v) else p) k' = jsGet m k' := by
  induction m with
  | nil => rfl
  | cons x rest ih =>
    obtain ⟨x1, x2⟩ := x
    rw [updateKey_cons]
    by_cases hxk : x1 = k
    · rw [if_pos hxk, jsGet_cons, jsGet_cons,
        if_neg (fun h : k = k' => hk h.symm),
        if_neg (fun h : x1 = k' => hk (hxk.symm.trans h).symm)]
      exact ih
    · rw [if_neg hxk, jsGet_cons, jsGet_cons]
      by_cases hx' : x1 = k'
      · rw [if_pos hx', if_pos hx']
      · rw [if_neg hx', if_neg hx']
        exact ih

theorem jsGet_append_single_self {m : List (String × γ)} {k : String} (v : γ)
    (hk : k ∉ m.map Prod.fst) :
    jsGet (m ++ [(k, v)]) k = some v := by
  induction m with
  | nil =>
    show jsGet ((k, v) :: []) k = some v
    rw [jsGet_cons, if_pos rfl]
  | cons x rest ih =>
    obtain ⟨x1, x2⟩ := x
    simp only [List.map_cons, List.mem_cons] at hk
    push_neg at hk
    rw [List.cons_append, jsGet_cons, if_neg (fun h => hk.1 h.symm)]
    exact ih hk.2

theorem jsGet_append_single_ne {m : List (String × γ)} {k k' : String} (v : γ)
    (hk : k' ≠ k) :
    jsGet (m ++ [(k, v)]) k' = jsGet m k' := by
  induction m with
  | nil =>
    show jsGet ((k, v) :: []) k' = jsGet [] k'
    rw [jsGet_cons, if_neg (fun h => hk h.symm)]
  | cons x rest ih =>
    obtain ⟨x1, x2⟩ := x
    rw [List.cons_append, jsGet_cons, jsGet_cons]
    by_cases hx' : x1 = k'
    · rw [if_pos hx', if_pos hx']
    · rw [if_neg hx', if_neg hx']
      exact ih

/-- `setKey` stores the given value under its key. -/
theorem jsGet_setKey_self (m : List (String × γ)) (k : String) (v : γ) :
    jsGet (setKey m k v) k = some v := by
  unfold setKey
  by_cases hany : m.any (fun p => p.1 = k)
  · rw [if_pos hany]
    exact jsGet_update_self v ((anyKey_iff m k).mp hany)
  · rw [if_neg hany]
    exact jsGet_append_single_self v (fun hmem => hany ((anyKey_iff m k).mpr hmem))

/-- `setKey` leaves other keys untouched. -/
theorem jsGet_setKey_ne (m : List (String × γ)) (k : String) (v : γ) {k' : String}
    (hk : k' ≠ k) : jsGet (setKey m k v) k' = jsGet m k' := by
  unfold setKey
  by_cases hany : m.any (fun p => p.1 = k)
  · rw [if_pos hany]
    exact jsGet_update_ne v hk
  · rw [if_neg hany]
    exact jsGet_append_single_ne v hk

/-- One `Object.assign` step: the source object overrides the target,
key by key, provided the source has no internal duplicate keys. -/
theorem jsGet_objAssign (m : List (String × γ)) {r : List (String × γ)}
    (hr : (r.map Prod.fst).Nodup) (k : String) :
    jsGet (objAssign m r) k = jsOr (jsGet r k) (jsGet m k) := by
  induction r generalizing m with
  | nil => rfl
  | cons x rest ih =>
    obtain ⟨x1, x2⟩ := x
    simp only [List.map_cons, List.nodup_cons] at hr
    have hstep : objAssign m ((x1, x2) :: rest) = objAssign (setKey m x1 x2) rest := rfl
    rw [hstep, ih (setKey m x1 x2) hr.2, jsGet_cons]
    by_cases hx : x1 = k
    · rw [if_pos hx, jsOr_some, jsGet_eq_none_of_not_mem (hx ▸ hr.1), jsOr_none_left, hx,
        jsGet_setKey_self]
    · rw [if_neg hx, jsGet_setKey_ne m x1 x2 (fun h => hx h.symm)]

/-- Folding `Object.assign` over a list of duplicate-free result objects:
lookup in the accumulated map is last-write-wins over the results, falling
back to the initial map. -/
theorem jsGet_foldl_objAssign {rs : List (List (String × γ))}
    (hall : ∀ r ∈ rs, (r.map Prod.fst).Nodup) (k : String) :
    ∀ init, jsGet (rs.foldl objAssign init) k = jsOr (lastLookup rs k) (jsGet init k) := by
  induction rs with
  | nil => intro init; rfl
  | cons r rest ih =>
    intro init
    have hr : (r.map Prod.fst).Nodup := hall r (List.mem_cons_self r rest)
    have hrest : ∀ r2 ∈ rest, (r2.map Prod.fst).Nodup :=
      fun r2 h2 => hall r2 (List.mem_cons_of_mem r h2)
    simp only [List.foldl_cons, lastLookup]
    rw [ih hrest (objAssign init r), jsGet_objAssign init hr k, jsOr_assoc]

/-- `mergeAll` is last-write-wins lookup over the result objects. -/
theorem jsGet_mergeAll {rs : List (List (String × γ))}
    (hall : ∀ r ∈ rs, (r.map Prod.fst).Nodup) (k : String) :
    jsGet (mergeAll rs) k = lastLookup rs k := by
  unfold mergeAll
  rw [jsGet_foldl_objAssign hall k []]
  exact jsOr_none_right _

end Merging

section Aggregation

variable {α V : Type}

/-- The rejection filter accepts exactly the rejected outcomes. -/
theorem promiseRejection_isSome_iff (o : Nat × Except JsError (List (String × V))) :
    (promiseRejection o).isSome = true ↔ isFulfilled o.2 = false := by
  obtain ⟨d, r⟩ := o
  cases r <;> simp [promiseRejection, isFulfilled]

/-- When every per-backend promise fulfills, `Promise.all` fulfills with
the merged map. -/
theorem allScm_all_ok (scms : List (String × α)) (fn : ScmOp α V)
    (hok : ∀ kv ∈ scms, isFulfilled (fn kv.2).2 = true) :
    allScm scms fn = Except.ok (mergeAll (allOkResults scms fn)) := by
  unfold allScm
  have hnone : earliestHit Prod.fst promiseRejection (allScmOutcomes scms fn) = none := by
    rw [earliestHit_eq_none_iff]
    intro o ho
    obtain ⟨kv, hkv, hfo⟩ := List.mem_map.mp ho
    have hf := hok kv hkv
    rw [hfo] at hf
    unfold promiseRejection
    cases ho2 : o.2 with
    | ok m => rfl
    | error e =>
      rw [ho2] at hf
      simp [isFulfilled] at hf
  rw [hnone]

/-- Claim C7 (confirmed).  `allScm` maps `fn` over the registry values in
registry order, awaits them with `Promise.all` (which preserves input
order in its result array regardless of settlement timing), and
`Object.assign`-merges the result objects into one map in that order:
when every call fulfills and each result object has duplicate-free keys,
the aggregate fulfills with the merged map, and lookup in the merged map
is last-write-wins across the per-backend results in registry order. -/
theorem allScm_merge_in_order_last_write_wins (scms : List (String × α))
    (fn : ScmOp α V)
    (hok : ∀ kv ∈ scms, isFulfilled (fn kv.2).2 = true)
    (hnodup : ∀ r ∈ allOkResults scms fn, (r.map Prod.fst).Nodup) :
    allScm scms fn = Except.ok (mergeAll (allOkResults scms fn)) ∧
    ∀ k, jsGet (mergeAll (allOkResults scms fn)) k =
      lastLookup (allOkResults scms fn) k :=
  ⟨allScm_all_ok scms fn hok, fun k => jsGet_mergeAll hnodup k⟩

/-- Demo registry for aggregation: three backends in registry order. -/
def demoScms7 : List (String × Nat) :=
  [("github.context", 0), ("gitlab.context", 1), ("example.context", 2)]

/-- Demo `getBellConfiguration`-style operation: each backend fulfills
immediately with its namespaced one-key object. -/
def demoFn7 : ScmOp Nat String := fun i =>
  if i = 0 then (0, Except.ok [("github", "A")])
  else if i = 1 then (0, Except.ok [("gitlab", "B")])
  else (0, Except.ok [("example", "C")])

/-- Claim C7 witness: aggregating the three demo backends yields the
combined map of the specification example. -/
theorem claim7_witness :
    allScm demoScms7 demoFn7 = Except.ok (mergeAll (allOkResults demoScms7 demoFn7)) ∧
    mergeAll (allOkResults demoScms7 demoFn7) =
      [("github", "A"), ("gitlab", "B"), ("example", "C")] :=
  ⟨(allScm_merge_in_order_last_write_wins demoScms7 demoFn7 (by decide) (by decide)).1,
    by decide⟩

/-- Claim C8 (corrected).  `allScm` awaits the per-backend promises with
`Promise.all`, which rejects with the first rejection to settle in time
(ties broken by registry order) — not necessarily the first failure in
registry-scan order.  Amended statement: when some backend call rejects,
the aggregate rejects — returning no partial results — with the rejection
of minimal settlement delay, earlier-positioned on ties; equivalently the
aggregate rejects with `e` exactly when some outcome rejecting with `e`
settles strictly before every rejection listed before it and no later
than every rejection listed after it. -/
theorem allScm_first_settled_rejection (scms : List (String × α))
    (fn : ScmOp α V) (e : JsError) :
    allScm scms fn = Except.error e ↔
      ∃ pre o post, allScmOutcomes scms fn = pre ++ o :: post ∧
        o.2 = Except.error e ∧
        (∀ t ∈ pre, isFulfilled t.2 = false → o.1 < t.1) ∧
        (∀ t ∈ post, isFulfilled t.2 = false → o.1 ≤ t.1) := by
  unfold allScm
  constructor
  · intro h
    cases hE : earliestHit Prod.fst promiseRejection (allScmOutcomes scms fn) with
    | none =>
      rw [hE] at h
      cases h
    | some db =>
      obtain ⟨d, b⟩ := db
      rw [hE] at h
      have hbe : b = e := by
        cases h
        rfl
      subst hbe
      obtain ⟨pre, o, post, hl, hfo, hto, hpre, hpost⟩ := earliestHit_spec _ _ hE
      refine ⟨pre, o, post, hl, ?_, ?_, ?_⟩
      · unfold promiseRejection at hfo
        cases ho2 : o.2 with
        | ok m => rw [ho2] at hfo; cases hfo
        | error e2 =>
          rw [ho2] at hfo
          cases hfo
          rfl
      · intro t ht hrej
        have := hpre t ht ((promiseRejection_isSome_iff t).mpr hrej)
        exact hto ▸ this
      · intro t ht hrej
        have := hpost t ht ((promiseRejection_isSome_iff t).mpr hrej)
        exact hto ▸ this
  · rintro ⟨pre, o, post, hl, ho2, hpre, hpost⟩
    have hfo : promiseRejection o = some e := by
      unfold promiseRejection
      rw [ho2]
    have hE : earliestHit Prod.fst promiseRejection (allScmOutcomes scms fn) =
        some (o.1, e) := by
      rw [hl]
      refine earliestHit_complete _ _ pre o post hfo rfl ?_ ?_
      · intro t ht hsome
        exact hpre t ht ((promiseRejection_isSome_iff t).mp hsome)
      · intro t ht hsome
        exact hpost t ht ((promiseRejection_isSome_iff t).mp hsome)
    rw [hE]

/-- Demo registry for the rejection race: two backends. -/
def demoScms8 : List (String × Nat) := [("github.context", 0), ("example.context", 1)]

/-- Demo operation where both backends reject, the first-registered one
slowly and the second-registered one immediately. -/
def demoFn8 : ScmOp Nat String := fun i =>
  if i = 0 then (5, Except.error ⟨"slow rejection", none⟩)
  else (0, Except.error ⟨"fast rejection", none⟩)

/-- Claim C8 counterexample.  The first failure in registry-scan order is
the slow rejection of the first backend, but the aggregate rejects with
the second backend error because that rejection settles first. -/
theorem claim8_counterexample :
    errMessage (allScm demoScms8 demoFn8) = some "fast rejection" ∧
    errMessage (allScm demoScms8 demoFn8) ≠ some "slow rejection" := by
  decide

end Aggregation

section RegistryClaims

variable {ι ν : Type}

/-- Unfolding equation for `new` on a present `config.scms`. -/
theorem new_some (env : PluginEnv ι ν) (entries : List (String × ScmsEntry ν)) :
    new env (some entries) =
      match processEntries env entries [] with
      | Except.error e => Except.error e
      | Except.ok scms =>
        if scms.isEmpty then Except.error noScmConfigError else Except.ok scms := rfl

/-- Claim C3 (confirmed).  When the resolved plugin instantiates
successfully and reports a first context that is already registered,
`loadPlugin` returns with the registry unchanged: the existing
registration is kept (first-registered-wins) and the newly constructed
instance is not installed anywhere. -/
theorem loadPlugin_duplicate_keeps_existing (env : PluginEnv ι ν)
    (plugin : String) (options : JsOptions ν) (scms : Registry ι)
    (make : JsOptions ν → Except JsError (ScmPlugin ι)) (sp : ScmPlugin ι) (ctx : String)
    (hp : plugin ≠ "router") (hres : env.resolve plugin = some make)
    (hmake : make options = Except.ok sp) (hctx : sp.contexts.head? = some (some ctx))
    (hdup : (jsGet scms ctx).isSome = true) :
    loadPlugin env plugin options scms = Except.ok scms := by
  unfold loadPlugin
  simp only [if_neg hp, hres, hmake, hctx]
  by_cases hctx0 : ctx = ""
  · rw [if_pos hctx0]
  · rw [if_neg hctx0, if_pos hdup]

/-- The plugin instance already registered in the demo registry. -/
def demoExisting3 : ScmPlugin Nat := ⟨[some "github:github.com"], 0⟩

/-- A freshly constructed plugin instance reporting the same context. -/
def demoPlugin3 : ScmPlugin Nat := ⟨[some "github:github.com"], 1⟩

/-- Demo module environment resolving only the `github` plugin, whose
constructor returns the duplicate instance. -/
def demoEnv3 : PluginEnv Nat Unit :=
  ⟨fun p => if p = "github" then some (fun _ => Except.ok demoPlugin3) else none⟩

/-- Demo registry already holding the context key. -/
def demoReg3 : Registry Nat := [("github:github.com", demoExisting3)]

/-- Claim C3 witness: loading a plugin whose context is already registered
leaves the concrete registry unchanged. -/
theorem claim3_witness :
    loadPlugin demoEnv3 "github" JsOptions.null demoReg3 = Except.ok demoReg3 :=
  loadPlugin_duplicate_keeps_existing demoEnv3 "github" JsOptions.null demoReg3
    (fun _ => Except.ok demoPlugin3) demoPlugin3 "github:github.com"
    (by decide) rfl rfl rfl rfl

/-- Claim C4 (confirmed).  `chooseScm` with a registered context string
resolves to exactly the stored backend instance; with a falsy config, an
absent or non-string `scmContext`, or an unregistered context string it
rejects with the `Not implemented` error — it never fulfills with
anything but a stored instance (the fulfillment branch returns
`this.scms[scmContext]` itself, unwrapped and uncopied). -/
theorem chooseScm_resolution (scms : Registry ι) :
    (∀ s sp, (getScmContexts scms).Nodup → (s, sp) ∈ scms →
      chooseScm scms (ReqConfig.obj (some s)) = Except.ok sp) ∧
    chooseScm scms ReqConfig.falsy = Except.error notImplementedError ∧
    chooseScm scms (ReqConfig.obj none) = Except.error notImplementedError ∧
    ∀ s, jsGet scms s = none →
      chooseScm scms (ReqConfig.obj (some s)) = Except.error notImplementedError := by
  refine ⟨?_, rfl, rfl, ?_⟩
  · intro s sp hnd hmem
    have hnd2 : (scms.map Prod.fst).Nodup := hnd
    simp only [chooseScm, jsGet_of_mem_nodup hnd2 hmem]
  · intro s hnone
    simp only [chooseScm, hnone]

/-- Demo registry for explicit resolution. -/
def demoReg4 : Registry Nat := [("github:github.com", ⟨[some "github:github.com"], 7⟩)]

/-- Claim C4 witness: resolution on a concrete registry returns the stored
instance for the registered key and rejects with `Not implemented` for a
falsy config and for an unknown key. -/
theorem claim4_witness :
    chooseScm demoReg4 (ReqConfig.obj (some "github:github.com")) =
      Except.ok ⟨[some "github:github.com"], 7⟩ ∧
    chooseScm demoReg4 ReqConfig.falsy = Except.error notImplementedError ∧
    chooseScm demoReg4 (ReqConfig.obj (some "hoge.context")) =
      Except.error notImplementedError := by
  have h := chooseScm_resolution demoReg4
  exact ⟨h.1 "github:github.com" ⟨[some "github:github.com"], 7⟩ (by decide) (by decide),
    h.2.1, h.2.2.2 "hoge.context" (by decide)⟩

/-- Reference definition following the wording of the specification: the
effect of one plugin load on just the list of registered context keys —
failures skip, a fresh valid context is appended at the end, a duplicate
keeps the existing list. -/
def specLoadContexts (env : PluginEnv ι ν) (plugin : String)
    (options : JsOptions ν) (ks : List String) : Except JsError (List String) :=
  if plugin = "router" then Except.ok ks
  else
    match env.resolve plugin with
    | none => Except.ok ks
    | some make =>
      match make options with
      | Except.error e => Except.error e
      | Except.ok sp =>
        match sp.contexts.head? with
        | some (some ctx) =>
          if ctx = "" then Except.ok ks
          else if ctx ∈ ks then Except.ok ks
          else Except.ok (ks ++ [ctx])
        | _ => Except.ok ks

/-- Reference definition following the wording of the specification: the
context keys accumulated by processing all descriptors, in registration
order. -/
def specRegisteredContexts (env : PluginEnv ι ν) :
    List (String × ScmsEntry ν) → List String → Except JsError (List String)
  | [], ks => Except.ok ks
  | e :: rest, ks =>
    match (match e.2 with
           | ScmsEntry.nonObject => Except.error noScmConfigError
           | ScmsEntry.scm plugin cfg =>
             match cfg with
             | CfgField.truthyNonObject => Except.error noScmConfigError
             | CfgField.falsy => specLoadContexts env plugin JsOptions.null ks
             | CfgField.obj dn r2 =>
               specLoadContexts env plugin (JsOptions.obj (dn.getD e.1) r2) ks) with
    | Except.error err => Except.error err
    | Except.ok ks2 => specRegisteredContexts env rest ks2

/-- One load refines the keys-only reference: the registered keys after
`loadPlugin` are what the reference computes from the keys before. -/
theorem loadPlugin_contexts (env : PluginEnv ι ν) (plugin : String)
    (options : JsOptions ν) (scms : Registry ι) :
    specLoadContexts env plugin options (getScmContexts scms) =
      (loadPlugin env plugin options scms).map getScmContexts := by
  by_cases hp : plugin = "router"
  · simp [specLoadContexts, loadPlugin, hp, Except.map]
  · cases hres : env.resolve plugin with
    | none => simp [specLoadContexts, loadPlugin, hp, hres, Except.map]
    | some make =>
      cases hmake : make options with
      | error e => simp [specLoadContexts, loadPlugin, hp, hres, hmake, Except.map]
      | ok sp =>
        cases hhead : sp.contexts.head? with
        | none => simp [specLoadContexts, loadPlugin, hp, hres, hmake, hhead, Except.map]
        | some c =>
          cases c with
          | none => simp [specLoadContexts, loadPlugin, hp, hres, hmake, hhead, Except.map]
          | some ctx =>
            by_cases hctx : ctx = ""
            · simp [specLoadContexts, loadPlugin, hp, hres, hmake, hhead, hctx, Except.map]
            · by_cases hdup : ctx ∈ getScmContexts scms
              · have hdup2 : (jsGet scms ctx).isSome = true := jsGet_isSome_iff.mpr hdup
                simp [specLoadContexts, loadPlugin, hp, hres, hmake, hhead, hctx, hdup, hdup2,
                  Except.map]
              · have hdup2 : (jsGet scms ctx).isSome = false := by
                  cases hs : (jsGet scms ctx).isSome with
                  | false => rfl
                  | true => exact absurd (jsGet_isSome_iff.mp hs) hdup
                simp [specLoadContexts, loadPlugin, hp, hres, hmake, hhead, hctx, hdup, hdup2,
                  Except.map, getScmContexts]
                intro x hx
                exact hdup (List.mem_map_of_mem Prod.fst hx)

/-- The whole constructor loop refines the keys-only reference. -/
theorem processEntries_contexts (env : PluginEnv ι ν) :
    ∀ (entries : List (String × ScmsEntry ν)) (scms : Registry ι),
      specRegisteredContexts env entries (getScmContexts scms) =
        (processEntries env entries scms).map getScmContexts := by
  intro entries
  induction entries with
  | nil => intro scms; rfl
  | cons e rest ih =>
    intro scms
    obtain ⟨key, entry⟩ := e
    cases entry with
    | nonObject => rfl
    | scm plugin cfg =>
      cases cfg with
      | truthyNonObject => rfl
      | falsy =>
        have hload := loadPlugin_contexts env plugin JsOptions.null scms
        simp only [specRegisteredContexts, processEntries, processEntry]
        cases hl : loadPlugin env plugin JsOptions.null scms with
        | error err =>
          rw [hl] at hload
          simp only [Except.map] at hload
          simp [hload, Except.map]
        | ok scms2 =>
          rw [hl] at hload
          simp only [Except.map] at hload
          simp only [hload]
          exact ih scms2
      | obj dn r2 =>
        have hload := loadPlugin_contexts env plugin (JsOptions.obj (dn.getD key) r2) scms
        simp only [specRegisteredContexts, processEntries, processEntry]
        cases hl : loadPlugin env plugin (JsOptions.obj (dn.getD key) r2) scms with
        | error err =>
          rw [hl] at hload
          simp only [Except.map] at hload
          simp [hload, Except.map]
        | ok scms2 =>
          rw [hl] at hload
          simp only [Except.map] at hload
          simp only [hload]
          exact ih scms2

/-- Claim C5 (confirmed).  An absent `config.scms`, or a processed
descriptor list after which the registry is still empty (every descriptor
was skipped as unresolvable, reserved, malformed-context or duplicate),
makes the constructor throw the configuration error; and whenever the
descriptor loop completes with a non-empty registry, construction
succeeds with exactly that registry, whose listed context keys are the
keys the specification-side scan registers, in registration order. -/
theorem new_configuration_error_and_contexts (env : PluginEnv ι ν) :
    new env (none : Option (List (String × ScmsEntry ν))) = Except.error noScmConfigError ∧
    ∀ (entries : List (String × ScmsEntry ν)) (reg : Registry ι),
      processEntries env entries [] = Except.ok reg →
      ((reg = [] → new env (some entries) = Except.error noScmConfigError) ∧
       (reg ≠ [] →
         new env (some entries) = Except.ok reg ∧
         specRegisteredContexts env entries [] = Except.ok (getScmContexts reg))) := by
  refine ⟨rfl, ?_⟩
  intro entries reg hproc
  constructor
  · intro hempty
    rw [new_some, hproc, hempty]
    rfl
  · intro hne
    refine ⟨?_, ?_⟩
    · rw [new_some, hproc]
      cases reg with
      | nil => exact absurd rfl hne
      | cons r rs => rfl
    · have hspec := processEntries_contexts env entries []
      rw [hproc] at hspec
      exact hspec

/-- Demo module environment: only the `github` plugin resolves; its
constructor fulfills with a plugin reporting context
`github:github.com`. -/
def demoGithubEnv : PluginEnv Nat Unit :=
  ⟨fun p =>
    if p = "github" then some (fun _ => Except.ok ⟨[some "github:github.com"], 0⟩)
    else none⟩

/-- Demo descriptor list: one resolvable descriptor and one whose plugin
module does not exist. -/
def demoEntries5 : List (String × ScmsEntry Unit) :=
  [("github.com", ScmsEntry.scm "github" (CfgField.obj (some "github.com") ())),
   ("DNE.com", ScmsEntry.scm "DNE" (CfgField.obj (some "DNE.com") ()))]

/-- The registry the demo construction produces. -/
def demoReg5 : Registry Nat := [("github:github.com", ⟨[some "github:github.com"], 0⟩)]

/-- Claim C5 witness: the concrete construction succeeds with the one
successfully registered backend and its context key, the unresolvable
descriptor degrading silently. -/
theorem claim5_witness :
    new demoGithubEnv (some demoEntries5) = Except.ok demoReg5 ∧
    specRegisteredContexts demoGithubEnv demoEntries5 [] =
      Except.ok ["github:github.com"] := by
  have h := ((new_configuration_error_and_contexts demoGithubEnv).2 demoEntries5
    demoReg5 rfl).2 (by decide)
  exact ⟨h.1, h.2⟩

/-- Claim C6 counterexample.  An array-form descriptor (key `"0"` models
the array index) whose config has no `displayName` does not make the
constructor throw: construction fulfills. -/
theorem claim6_counterexample :
    isFulfilled
      (new demoGithubEnv (some [("0", ScmsEntry.scm "github" (CfgField.obj none ()))])) =
      true := by
  decide

/-- Claim C6 (corrected).  The current constructor has no `displayName`
requirement: a descriptor whose config lacks `displayName` is loaded with
the entry key (the array index, in array form) supplied as the default
`displayName` via `hoek.applyToDefaults({ displayName }, scm.config)`,
and construction succeeds whenever that descriptor registers. -/
theorem new_missing_displayName_defaults_to_key (env : PluginEnv ι ν)
    (key plugin : String) (r : ν)
    (make : JsOptions ν → Except JsError (ScmPlugin ι)) (sp : ScmPlugin ι) (ctx : String)
    (hp : plugin ≠ "router") (hres : env.resolve plugin = some make)
    (hmake : make (JsOptions.obj key r) = Except.ok sp)
    (hctx : sp.contexts.head? = some (some ctx)) (hne : ctx ≠ "") :
    new env (some [(key, ScmsEntry.scm plugin (CfgField.obj none r))]) =
      Except.ok [(ctx, sp)] := by
  have hload : loadPlugin env plugin (JsOptions.obj key r) [] = Except.ok [(ctx, sp)] := by
    unfold loadPlugin
    simp only [if_neg hp, hres, hmake, hctx, if_neg hne]
    rfl
  have hstep : processEntries env [(key, ScmsEntry.scm plugin (CfgField.obj none r))] [] =
      Except.ok [(ctx, sp)] := by
    simp only [processEntries, processEntry, Option.getD_none, hload]
  rw [new_some, hstep]
  rfl

/-- Claim C6 witness: the amended statement at the concrete array-form
descriptor without `displayName`; the backend registers under its
reported context. -/
theorem claim6_witness :
    new demoGithubEnv (some [("0", ScmsEntry.scm "github" (CfgField.obj none ()))]) =
      Except.ok [("github:github.com", ⟨[some "github:github.com"], 0⟩)] :=
  new_missing_displayName_defaults_to_key demoGithubEnv "0" "github" ()
    (fun _ => Except.ok ⟨[some "github:github.com"], 0⟩)
    ⟨[some "github:github.com"], 0⟩ "github:github.com"
    (by decide) rfl rfl rfl (by decide)

end RegistryClaims


end ScmRouter
